import Mathlib

/-!
Verification of the Tasks-up to-do list core (TodoList.jsx).

The JavaScript source is shallowly embedded: strings are `String`/`List Char`,
the fixed regular expressions of the source are embedded as deterministic
character-list matchers that reproduce the JS engine's leftmost greedy
backtracking behaviour on those specific patterns, JS `Date` objects are a
record of the constructor arguments together with an explicit
milliseconds-since-epoch conversion (local time modelled with zero UTC
offset; the claims under study only involve differences of instants, which
are offset-invariant), and the stateful due-check loop becomes a recursive
function threading the set of already-notified task ids.
-/

namespace TasksUp

/-! ## Character classes (JS regex `\d`, `\s`, `[\/\-]`, word chars for `\b`) -/

/-- Digit class of the JS regex `\d` (ASCII `0`-`9`). -/
def isDigitChar (c : Char) : Bool := '0' ≤ c && c ≤ '9'

/-- Separator class `[\/\-]` of the date pattern. -/
def isSepChar (c : Char) : Bool := c = '/' || c = '-'

/-- Whitespace class of the JS regex `\s` (ASCII subset model). -/
def isJsSpace (c : Char) : Bool :=
  c = ' ' || c = '\t' || c = '\n' || c = '\r' || c = '\x0b' || c = '\x0c'

/-- Word-character class used by the JS `\b` boundary: `[A-Za-z0-9_]`. -/
def isWordChar (c : Char) : Bool :=
  isDigitChar c || ('A' ≤ c && c ≤ 'Z') || ('a' ≤ c && c ≤ 'z') || c = '_'

/-- Split off the maximal prefix of digit characters (greedy `\d*` run). -/
def splitDigits : List Char → List Char × List Char
  | [] => ([], [])
  | c :: r =>
    if isDigitChar c then
      let p := splitDigits r
      (c :: p.1, p.2)
    else ([], c :: r)

/-- Split off the maximal prefix of whitespace characters (greedy `\s*` run). -/
def splitSpaces : List Char → List Char × List Char
  | [] => ([], [])
  | c :: r =>
    if isJsSpace c then
      let p := splitSpaces r
      (c :: p.1, p.2)
    else ([], c :: r)

/-! ## The date pattern `(\d{1,2})[\/\-](\d{1,2})[\/\-](\d{2,4})` -/

/-- Capture groups of one match of the date pattern. -/
structure DateGroups where
  day : List Char
  sep1 : Char
  month : List Char
  sep2 : Char
  year : List Char
deriving DecidableEq

/-- Concatenation of the groups: the text matched by the date pattern. -/
def DateGroups.flat (g : DateGroups) : List Char :=
  g.day ++ g.sep1 :: (g.month ++ g.sep2 :: g.year)

/-- Every character of the list is a digit. -/
def allDigits (l : List Char) : Prop := ∀ c ∈ l, isDigitChar c = true

instance (l : List Char) : Decidable (allDigits l) := by
  unfold allDigits; infer_instance

/-- Shape of the capture groups of the date pattern
`<1-2 digit><sep><1-2 digit><sep><2-4 digit>`. -/
def goodGroups (g : DateGroups) : Prop :=
  1 ≤ g.day.length ∧ g.day.length ≤ 2 ∧ allDigits g.day ∧
  isSepChar g.sep1 = true ∧
  1 ≤ g.month.length ∧ g.month.length ≤ 2 ∧ allDigits g.month ∧
  isSepChar g.sep2 = true ∧
  2 ≤ g.year.length ∧ g.year.length ≤ 4 ∧ allDigits g.year

instance (g : DateGroups) : Decidable (goodGroups g) := by
  unfold goodGroups; infer_instance

/-- Step `\d{1,2}` immediately followed by a mandatory non-digit continuation:
with the JS engine's greedy backtracking this succeeds exactly when the
maximal digit run has length 1 or 2 (a run of 3 or more makes both the
2-digit and the 1-digit attempt hit a digit where the continuation starts). -/
def takeDigits12 (l : List Char) : Option (List Char × List Char) :=
  let p := splitDigits l
  if p.1.length = 0 ∨ 2 < p.1.length then none else some p

/-- Step `[\/\-]`: one separator character. -/
def takeSep : List Char → Option (Char × List Char)
  | [] => none
  | c :: r => if isSepChar c then some (c, r) else none

/-- Step `\d{2,4}` followed only by optional material: greedily takes
`min 4` characters of a digit run of length at least 2. -/
def takeYear (l : List Char) : Option (List Char × List Char) :=
  let p := splitDigits l
  if p.1.length < 2 then none else some (p.1.take 4, p.1.drop 4 ++ p.2)

/-- Step `:`. -/
def takeColon : List Char → Option (List Char)
  | [] => none
  | c :: r => if c = ':' then some r else none

/-- Step `\d{2}`: exactly two digits of a run of length at least 2. -/
def takeMinutes (l : List Char) : Option (List Char × List Char) :=
  let p := splitDigits l
  if p.1.length < 2 then none else some (p.1.take 2, p.1.drop 2 ++ p.2)

/-- Step `\s+`: a nonempty greedy whitespace run. -/
def takeSpaces1 (l : List Char) : Option (List Char × List Char) :=
  let p := splitSpaces l
  if p.1.length = 0 then none else some p

/-- Anchored match of the date pattern at the head of `l`: on success returns
the capture groups and the remaining input. -/
def matchDateAt (l : List Char) : Option (DateGroups × List Char) :=
  match takeDigits12 l with
  | none => none
  | some (d, r1) =>
    match takeSep r1 with
    | none => none
    | some (c1, r2) =>
      match takeDigits12 r2 with
      | none => none
      | some (m, r3) =>
        match takeSep r3 with
        | none => none
        | some (c2, r4) =>
          match takeYear r4 with
          | none => none
          | some (y, r5) => some (⟨d, c1, m, c2, y⟩, r5)

/-- Scan of `String.match` for the date pattern: leftmost position at which the
anchored match succeeds; returns (text before the match, groups, text after). -/
def searchDate : List Char → Option (List Char × DateGroups × List Char)
  | [] => none
  | c :: rest =>
    match matchDateAt (c :: rest) with
    | some (g, r) => some ([], g, r)
    | none =>
      match searchDate rest with
      | some (p, g, r) => some (c :: p, g, r)
      | none => none

/-! ## Meridiem marker `(AM|PM)` with the `i` flag -/

/-- Anchored case-insensitive match of `(AM|PM)`: matched text and rest. -/
def matchMer : List Char → Option (List Char × List Char)
  | a :: b :: r =>
    if ((a = 'A' ∨ a = 'a') ∨ (a = 'P' ∨ a = 'p')) ∧ (b = 'M' ∨ b = 'm')
    then some ([a, b], r) else none
  | _ => none

/-! ## The optional time tail `(\s+\d{1,2}:\d{2}\s?(AM|PM)?)?` of the full
date/time pattern used by `extractDateTime` and `removeDateTime` -/

/-- Step `\s?(AM|PM)?` of the full pattern: `\s?` greedily consumes one
whitespace character when present (everything after it is optional, so no
backtracking can undo it), then an optional meridiem marker.  Total function:
returns the consumed characters and the rest. -/
def takeOptSpaceMer (l : List Char) : List Char × List Char :=
  match l with
  | [] => ([], [])
  | c :: r =>
    if isJsSpace c then
      match matchMer r with
      | some (mer, r2) => (c :: mer, r2)
      | none => ([c], r)
    else
      match matchMer (c :: r) with
      | some (mer, r2) => (mer, r2)
      | none => ([], c :: r)

/-- Anchored match of the inner time group `\s+\d{1,2}:\d{2}\s?(AM|PM)?`:
matched text and rest. -/
def matchTimeTail (l : List Char) : Option (List Char × List Char) :=
  match takeSpaces1 l with
  | none => none
  | some (sp, r1) =>
    match takeDigits12 r1 with
    | none => none
    | some (h, r2) =>
      match takeColon r2 with
      | none => none
      | some r3 =>
        match takeMinutes r3 with
        | none => none
        | some (mm, r4) =>
          let tl := takeOptSpaceMer r4
          some (sp ++ h ++ ':' :: (mm ++ tl.1), tl.2)

/-- Anchored match of the full pattern
`(\d{1,2}[\/\-]\d{1,2}[\/\-]\d{2,4})(\s+\d{1,2}:\d{2}\s?(AM|PM)?)?`:
matched text and rest. -/
def matchFullAt (l : List Char) : Option (List Char × List Char) :=
  match matchDateAt l with
  | none => none
  | some (g, r) =>
    match matchTimeTail r with
    | some (tm, r2) => some (g.flat ++ tm, r2)
    | none => some (g.flat, r)

/-- Scan of `String.match` / `String.replace` for the full date/time pattern:
(text before the first match, matched text, text after). -/
def searchFull : List Char → Option (List Char × List Char × List Char)
  | [] => none
  | c :: rest =>
    match matchFullAt (c :: rest) with
    | some (m, r) => some ([], m, r)
    | none =>
      match searchFull rest with
      | some (p, m, r) => some (c :: p, m, r)
      | none => none

/-! ## Declarative shapes of the matched substrings

These predicates state, independently of the matchers, what it means for a
string to be of the shape
`<1-2 digit><sep><1-2 digit><sep><2-4 digit>` optionally followed by
whitespace, `<1-2 digit>:<2 digit>` and an optional meridiem marker. -/

/-- Shape of a case-insensitive meridiem marker `AM`/`PM`. -/
def merShape (l : List Char) : Prop :=
  ∃ a b, l = [a, b] ∧ ((a = 'A' ∨ a = 'a') ∨ (a = 'P' ∨ a = 'p')) ∧ (b = 'M' ∨ b = 'm')

/-- Shape of the text consumed by the trailing `\s?(AM|PM)?`. -/
def optTailShape (tl : List Char) : Prop :=
  tl = [] ∨ (∃ c, tl = [c] ∧ isJsSpace c = true) ∨ merShape tl ∨
    ∃ c mer, tl = c :: mer ∧ isJsSpace c = true ∧ merShape mer

/-- Shape of the text matched by the time group `\s+\d{1,2}:\d{2}\s?(AM|PM)?`. -/
def timeTailShape (tm : List Char) : Prop :=
  ∃ sp h mm tl,
    tm = sp ++ h ++ ':' :: (mm ++ tl) ∧
    sp ≠ [] ∧ (∀ c ∈ sp, isJsSpace c = true) ∧
    1 ≤ h.length ∧ h.length ≤ 2 ∧ allDigits h ∧
    mm.length = 2 ∧ allDigits mm ∧ optTailShape tl

/-- Shape of the text matched by the date pattern: a flattening of good
capture groups. -/
def dateShape (t : List Char) : Prop :=
  ∃ g : DateGroups, goodGroups g ∧ t = g.flat

/-- Shape of the text matched by the full date/time pattern: a date part
optionally followed by a time part. -/
def fullShape (t : List Char) : Prop :=
  ∃ g tm, goodGroups g ∧ (tm = [] ∨ timeTailShape tm) ∧ t = DateGroups.flat g ++ tm

/-! ## Time-only pattern `\b\d{1,2}:\d{2}\s?(AM|PM)\b` (flag `i`) -/

/-- Trailing `\b` after the meridiem letters: next character, if any, is not a
word character. -/
def boundaryOkAfter : List Char → Bool
  | [] => true
  | c :: _ => !isWordChar c

/-- Leading `\b` before the first digit: previous character, if any, is not a
word character. -/
def prevOkBefore : Option Char → Bool
  | none => true
  | some c => !isWordChar c

/-- Step `\s?(AM|PM)` with the meridiem mandatory: if `\s?` consumes a
whitespace character the marker must follow it (backtracking to the empty
`\s?` then fails on the whitespace character itself). -/
def takeSpaceMer (l : List Char) : Option (List Char × List Char) :=
  match l with
  | [] => none
  | c :: r =>
    if isJsSpace c then (matchMer r).map fun x => (c :: x.1, x.2)
    else matchMer (c :: r)

/-- Anchored match of `\b\d{1,2}:\d{2}\s?(AM|PM)\b` given the character
preceding the current position; returns the matched text. -/
def matchTimeOnlyAt (prev : Option Char) (l : List Char) : Option (List Char) :=
  if prevOkBefore prev = false then none
  else
    match takeDigits12 l with
    | none => none
    | some (h, r2) =>
      match takeColon r2 with
      | none => none
      | some r3 =>
        match takeMinutes r3 with
        | none => none
        | some (mm, r4) =>
          match takeSpaceMer r4 with
          | none => none
          | some (tl, r5) =>
            if boundaryOkAfter r5 then some (h ++ ':' :: (mm ++ tl)) else none

/-- Scan for the time-only pattern, tracking the previous character for `\b`. -/
def searchTimeOnly (prev : Option Char) : List Char → Option (List Char)
  | [] => none
  | c :: rest =>
    match matchTimeOnlyAt prev (c :: rest) with
    | some m => some m
    | none => searchTimeOnly (some c) rest

/-! ## Meridiem value and the bare time pattern `(\d{1,2}):(\d{2})\s?(AM|PM)?`
used inside `parseUserDate` -/

/-- Normalized meridiem marker (the source compares `period.toUpperCase()`). -/
inductive Mer where
  | am : Mer
  | pm : Mer
deriving DecidableEq

/-- Normalized value of a matched meridiem marker (the source compares
`period.toUpperCase()` with `"PM"` and `"AM"`). -/
def merValue (ab : List Char) : Mer :=
  if ab.head? = some 'P' ∨ ab.head? = some 'p' then Mer.pm else Mer.am

/-- Value of the optional capture group `\s?(AM|PM)?`: the marker when
present (after at most one whitespace character), else absent. -/
def plainMerOf (l : List Char) : Option Mer :=
  match l with
  | [] => none
  | c :: r =>
    if isJsSpace c then (matchMer r).map fun x => merValue x.1
    else (matchMer (c :: r)).map fun x => merValue x.1

/-- Anchored match of `(\d{1,2}):(\d{2})\s?(AM|PM)?` returning the capture
groups (hour digits, minute digits, optional meridiem). -/
def matchPlainTimeAt (l : List Char) : Option (List Char × List Char × Option Mer) :=
  match takeDigits12 l with
  | none => none
  | some (h, r2) =>
    match takeColon r2 with
    | none => none
    | some r3 =>
      match takeMinutes r3 with
      | none => none
      | some (mm, r4) => some (h, mm, plainMerOf r4)

/-- Scan for the bare time pattern (no word boundaries in this regex). -/
def searchPlainTime : List Char → Option (List Char × List Char × Option Mer)
  | [] => none
  | c :: rest =>
    match matchPlainTimeAt (c :: rest) with
    | some g => some g
    | none => searchPlainTime rest

/-! ## The source functions on strings -/

/-- JS `String.prototype.trim` on the ASCII whitespace model. -/
def jsTrim (l : List Char) : List Char :=
  ((l.dropWhile isJsSpace).reverse.dropWhile isJsSpace).reverse

/-- Source `extractDateTime(text)`: first match of the full date/time pattern,
verbatim, or absent. -/
def extractDateTime (s : String) : Option String :=
  (searchFull s.data).map fun x => String.mk x.2.1

/-- Source `extractTimeOnly(text)`: first match of the standalone-time pattern
`\b\d{1,2}:\d{2}\s?(AM|PM)\b`, verbatim, or absent. -/
def extractTimeOnly (s : String) : Option String :=
  (searchTimeOnly none s.data).map String.mk

/-- Source `removeDateTime(text)`: the input with the first match of the full
date/time pattern replaced by the empty string, then trimmed. -/
def removeDateTime (s : String) : String :=
  match searchFull s.data with
  | some (p, _, r) => String.mk (jsTrim (p ++ r))
  | none => String.mk (jsTrim s.data)

/-- Numeric value of a digit string (JS `parseInt` on a string of digits). -/
def digitsToNat (l : List Char) : Nat :=
  l.foldl (fun a c => a * 10 + (c.toNat - '0'.toNat)) 0

/-- JS decimal rendering of a natural number padded to two characters with
`padStart(2, "0")`. -/
def pad2 (n : Nat) : String :=
  if (toString n).length < 2 then "0" ++ toString n else toString n

/-- Source `getTodayDate()`, parameterized by the clock reading:
`day = d.getDate()`, `month0 = d.getMonth()` (0-based), `year = d.getFullYear()`.
Returns `DD-MM-YYYY`. -/
def getTodayDate (day month0 year : Nat) : String :=
  pad2 day ++ "-" ++ pad2 (month0 + 1) ++ "-" ++ toString year

/-! ## JS dates -/

/-- Arguments of the `new Date(year, month, day, hours, minutes, 0, 0)`
constructor call in `parseUserDate`; `month` is 0-based and any field may be
out of its calendar range (the constructor normalizes by rolling over). -/
structure JsDate where
  year : Int
  month : Int
  day : Int
  hours : Int
  minutes : Int
deriving DecidableEq

/-- Days from the civil epoch 1970-01-01 for year `y`, month `m` (1..12) and
day-of-month `d` (any integer; out-of-range days roll over), proleptic
Gregorian calendar. -/
def daysFromCivil (y m d : Int) : Int :=
  let y2 := if m ≤ 2 then y - 1 else y
  let era := y2.fdiv 400
  let yoe := y2 - era * 400
  let mp := if 2 < m then m - 3 else m + 9
  let doy := (153 * mp + 2).fdiv 5 + d - 1
  let doe := yoe * 365 + yoe.fdiv 4 - yoe.fdiv 100 + doy
  era * 146097 + doe - 719468

/-- JS `Date.prototype.getTime` for a date built by
`new Date(year, month, day, hours, minutes, 0, 0)`: the constructor first
normalizes the 0-based month by rolling it into the year, then out-of-range
days, hours and minutes roll over arithmetically.  Local time is modelled
with zero UTC offset; only differences of instants matter to the claims. -/
def jsDateToMillis (dt : JsDate) : Int :=
  let ym := dt.year * 12 + dt.month
  let y := ym.fdiv 12
  let m0 := ym - 12 * y
  daysFromCivil y (m0 + 1) dt.day * 86400000
    + dt.hours * 3600000 + dt.minutes * 60000

/-- Source `parseUserDate(userDateStr)`: `null`/empty input is unparseable;
otherwise the first match of the date pattern gives day/month/year (month
made 0-based, 2-digit year plus 2000), and an independent search for the bare
time pattern gives hours/minutes (default midnight; 12-hour clock with
meridiem converted to 24-hour). -/
def parseUserDate (userDateStr : Option String) : Option JsDate :=
  match userDateStr with
  | none => none
  | some s =>
    if s = "" then none
    else
      match searchDate s.data with
      | none => none
      | some (_, g, _) =>
        let day : Int := digitsToNat g.day
        let month : Int := (digitsToNat g.month : Int) - 1
        let year0 : Nat := digitsToNat g.year
        let year : Int := if year0 < 100 then (year0 : Int) + 2000 else (year0 : Int)
        let hm : Int × Int :=
          match searchPlainTime s.data with
          | none => (0, 0)
          | some (h, mins, mer) =>
            let hh : Int := digitsToNat h
            let mi : Int := digitsToNat mins
            match mer with
            | some Mer.pm => if hh ≠ 12 then (hh + 12, mi) else (hh, mi)
            | some Mer.am => if hh = 12 then (0, mi) else (hh, mi)
            | none => (hh, mi)
        some { year := year, month := month, day := day, hours := hm.1, minutes := hm.2 }

/-! ## Tasks, task creation, the due-check loop, filtering -/

/-- A task row as used by the component: store-assigned id, cleaned text,
optional due-date string, completion flag. -/
structure Task where
  id : Nat
  text : String
  userDate : Option String
  completed : Bool
deriving DecidableEq

/-- The payload of the `insert` call in `addTask` (the id is store-assigned). -/
structure TaskInsert where
  text : String
  userDate : Option String
  completed : Bool
deriving DecidableEq

/-- Source `addTask`, parameterized by the clock reading used by
`getTodayDate`.  Empty (after trim) input is rejected; otherwise the inserted
row has the date/time match removed from the text, and `userDate` is the full
date match if present, else today's date if a standalone time is present,
else absent. -/
def addTask (newTask : String) (day month0 year : Nat) : Option TaskInsert :=
  if String.mk (jsTrim newTask.data) = "" then none
  else
    let fullDate := extractDateTime newTask
    let timeOnly := extractTimeOnly newTask
    let finalDate : Option String :=
      match fullDate with
      | some f => some f
      | none =>
        match timeOnly with
        | some _ => some (getTodayDate day month0 year)
        | none => none
    some { text := removeDateTime newTask, userDate := finalDate, completed := false }

/-- Source `checkDueTasks` (one tick): walks the task list; a task that is
completed or already notified is skipped, an unparseable date is skipped,
and a task whose due instant is within 5000 ms of `now` is notified and its
id added to the notified set.  Returns the notified set after the tick and
the ids notified during the tick, in order. -/
def checkDueTasks (now : Int) : List Task → List Nat → List Nat × List Nat
  | [], notified => (notified, [])
  | t :: ts, notified =>
    if t.completed = true ∨ t.id ∈ notified then checkDueTasks now ts notified
    else
      match parseUserDate t.userDate with
      | none => checkDueTasks now ts notified
      | some dt =>
        let timeDiff := jsDateToMillis dt - now
        if -5000 ≤ timeDiff ∧ timeDiff ≤ 5000 then
          let res := checkDueTasks now ts (t.id :: notified)
          (res.1, t.id :: res.2)
        else checkDueTasks now ts notified

/-- A session of the reminder loop: a list of ticks, each with its wall-clock
reading and the task list visible at that tick (the list may change between
ticks through edits or reloads).  Returns the final notified set and the
concatenation of the per-tick notification lists. -/
def runSession : List (Int × List Task) → List Nat → List Nat × List Nat
  | [], notified => (notified, [])
  | (now, ts) :: rest, notified =>
    let step := checkDueTasks now ts notified
    let tail := runSession rest step.1
    (tail.1, step.2 ++ tail.2)

/-- Source filter predicate: which tasks the current filter keeps. -/
def filterKeep (filter : String) (t : Task) : Bool :=
  if filter = "all" then true
  else if filter = "active" then !t.completed
  else if filter = "completed" then t.completed
  else true

/-- Source `filteredTasks`: the task list restricted to the current filter. -/
def filteredTasks (filter : String) (tasks : List Task) : List Task :=
  tasks.filter (filterKeep filter)

/-- Mode predicate as the specification states it: `active` keeps tasks that
are not completed, `completed` keeps completed tasks, `all` keeps every task. -/
def modePred (filter : String) (t : Task) : Bool :=
  if filter = "active" then !t.completed
  else if filter = "completed" then t.completed
  else true

/-! ## Lemmas about the digit and whitespace runs -/

theorem splitDigits_append (l : List Char) : (splitDigits l).1 ++ (splitDigits l).2 = l := by
  induction l with
  | nil => rfl
  | cons c r ih =>
    by_cases h : isDigitChar c = true
    · simp [splitDigits, h, ih]
    · simp [splitDigits, h]

theorem splitDigits_digits (l : List Char) : allDigits (splitDigits l).1 := by
  induction l with
  | nil => intro c hc; simp [splitDigits] at hc
  | cons c r ih =>
    by_cases h : isDigitChar c = true
    · intro d hd
      simp only [splitDigits, h, if_true] at hd
      rcases List.mem_cons.mp hd with rfl | hd2
      · exact h
      · exact ih d hd2
    · intro d hd; simp [splitDigits, h] at hd

theorem splitDigits_eq_of (d r : List Char) (hd : allDigits d)
    (hr : ∀ c, r.head? = some c → isDigitChar c = false) :
    splitDigits (d ++ r) = (d, r) := by
  induction d with
  | nil =>
    cases r with
    | nil => rfl
    | cons c r2 =>
      have : isDigitChar c = false := hr c rfl
      simp [splitDigits, this]
  | cons c d2 ih =>
    have hc : isDigitChar c = true := hd c (by simp)
    have hd2 : allDigits d2 := fun x hx => hd x (by simp [hx])
    simp [splitDigits, hc, ih hd2]

theorem splitDigits_append_digits (d post : List Char) (hd : allDigits d) :
    ∃ ext rest, splitDigits (d ++ post) = (d ++ ext, rest) := by
  induction d with
  | nil => exact ⟨(splitDigits post).1, (splitDigits post).2, by simp⟩
  | cons c d2 ih =>
    have hc : isDigitChar c = true := hd c (by simp)
    have hd2 : allDigits d2 := fun x hx => hd x (by simp [hx])
    rcases ih hd2 with ⟨ext, rest, hsp⟩
    exact ⟨ext, rest, by simp [splitDigits, hc, hsp]⟩

theorem splitSpaces_append (l : List Char) : (splitSpaces l).1 ++ (splitSpaces l).2 = l := by
  induction l with
  | nil => rfl
  | cons c r ih =>
    by_cases h : isJsSpace c = true
    · simp [splitSpaces, h, ih]
    · simp [splitSpaces, h]

theorem splitSpaces_spaces (l : List Char) : ∀ c ∈ (splitSpaces l).1, isJsSpace c = true := by
  induction l with
  | nil => intro c hc; simp [splitSpaces] at hc
  | cons c r ih =>
    by_cases h : isJsSpace c = true
    · intro d hd
      simp only [splitSpaces, h, if_true] at hd
      rcases List.mem_cons.mp hd with rfl | hd2
      · exact h
      · exact ih d hd2
    · intro d hd; simp [splitSpaces, h] at hd

theorem sep_not_digit {c : Char} (h : isSepChar c = true) : isDigitChar c = false := by
  simp only [isSepChar, Bool.or_eq_true, decide_eq_true_eq] at h
  rcases h with rfl | rfl <;> decide

/-! ## Soundness of the matcher steps -/

theorem takeDigits12_sound {l d r : List Char} (h : takeDigits12 l = some (d, r)) :
    l = d ++ r ∧ 1 ≤ d.length ∧ d.length ≤ 2 ∧ allDigits d := by
  simp only [takeDigits12] at h
  split at h
  · exact absurd h (by simp)
  · rename_i hlen
    push_neg at hlen
    have h2 : splitDigits l = (d, r) := Option.some.inj h
    have ha := splitDigits_append l
    have hdg := splitDigits_digits l
    rw [h2] at ha hdg hlen
    exact ⟨ha.symm, Nat.one_le_iff_ne_zero.mpr hlen.1, hlen.2, hdg⟩

theorem takeSep_sound {l : List Char} {c : Char} {r : List Char}
    (h : takeSep l = some (c, r)) : l = c :: r ∧ isSepChar c = true := by
  cases l with
  | nil => simp [takeSep] at h
  | cons c2 r2 =>
    simp only [takeSep] at h
    split at h
    · rename_i hsep
      have h2 : (c2, r2) = (c, r) := Option.some.inj h
      have hc : c2 = c := congrArg Prod.fst h2
      have hr : r2 = r := congrArg Prod.snd h2
      subst hc; subst hr
      exact ⟨rfl, hsep⟩
    · exact absurd h (by simp)

theorem takeYear_sound {l y r : List Char} (h : takeYear l = some (y, r)) :
    l = y ++ r ∧ 2 ≤ y.length ∧ y.length ≤ 4 ∧ allDigits y := by
  simp only [takeYear] at h
  split at h
  · exact absurd h (by simp)
  · rename_i hlen
    push_neg at hlen
    have h2 : ((splitDigits l).1.take 4, (splitDigits l).1.drop 4 ++ (splitDigits l).2) = (y, r) :=
      Option.some.inj h
    have hy : (splitDigits l).1.take 4 = y := congrArg Prod.fst h2
    have hr : (splitDigits l).1.drop 4 ++ (splitDigits l).2 = r := congrArg Prod.snd h2
    refine ⟨?_, ?_, ?_, ?_⟩
    · rw [← hy, ← hr, ← List.append_assoc, List.take_append_drop, splitDigits_append]
    · rw [← hy, List.length_take]
      exact Nat.le_min.mpr ⟨by norm_num, hlen⟩
    · rw [← hy, List.length_take]
      exact Nat.min_le_left 4 _
    · rw [← hy]
      exact fun ch hc => splitDigits_digits l ch (List.take_subset 4 _ hc)

theorem takeColon_sound {l r : List Char} (h : takeColon l = some r) : l = ':' :: r := by
  cases l with
  | nil => simp [takeColon] at h
  | cons c r2 =>
    simp only [takeColon] at h
    split at h
    · rename_i hc
      rw [hc, Option.some.inj h]
    · exact absurd h (by simp)

theorem takeMinutes_sound {l mm r : List Char} (h : takeMinutes l = some (mm, r)) :
    l = mm ++ r ∧ mm.length = 2 ∧ allDigits mm := by
  simp only [takeMinutes] at h
  split at h
  · exact absurd h (by simp)
  · rename_i hlen
    push_neg at hlen
    have h2 : ((splitDigits l).1.take 2, (splitDigits l).1.drop 2 ++ (splitDigits l).2) = (mm, r) :=
      Option.some.inj h
    have hy : (splitDigits l).1.take 2 = mm := congrArg Prod.fst h2
    have hr : (splitDigits l).1.drop 2 ++ (splitDigits l).2 = r := congrArg Prod.snd h2
    refine ⟨?_, ?_, ?_⟩
    · rw [← hy, ← hr, ← List.append_assoc, List.take_append_drop, splitDigits_append]
    · rw [← hy, List.length_take]
      exact Nat.min_eq_left hlen
    · rw [← hy]
      exact fun ch hc => splitDigits_digits l ch (List.take_subset 2 _ hc)

theorem takeSpaces1_sound {l sp r : List Char} (h : takeSpaces1 l = some (sp, r)) :
    l = sp ++ r ∧ sp ≠ [] ∧ ∀ c ∈ sp, isJsSpace c = true := by
  simp only [takeSpaces1] at h
  split at h
  · exact absurd h (by simp)
  · rename_i hlen
    have h2 : splitSpaces l = (sp, r) := Option.some.inj h
    have ha := splitSpaces_append l
    have hsp := splitSpaces_spaces l
    rw [h2] at ha hsp hlen
    exact ⟨ha.symm, fun he => hlen (by simp [he]), hsp⟩

theorem matchMer_sound {l ab r : List Char} (h : matchMer l = some (ab, r)) :
    l = ab ++ r ∧ merShape ab := by
  match l with
  | [] => simp [matchMer] at h
  | [a] => simp [matchMer] at h
  | a :: b :: r2 =>
    simp only [matchMer] at h
    split at h
    · rename_i hc
      have h2 : ([a, b], r2) = (ab, r) := Option.some.inj h
      have hab : [a, b] = ab := congrArg Prod.fst h2
      have hr : r2 = r := congrArg Prod.snd h2
      subst hr
      exact ⟨by rw [← hab]; rfl, by rw [← hab]; exact ⟨a, b, rfl, hc.1, hc.2⟩⟩
    · exact absurd h (by simp)

theorem takeOptSpaceMer_sound (l : List Char) :
    l = (takeOptSpaceMer l).1 ++ (takeOptSpaceMer l).2 ∧ optTailShape (takeOptSpaceMer l).1 := by
  cases l with
  | nil => exact ⟨rfl, Or.inl rfl⟩
  | cons c r =>
    by_cases hsp : isJsSpace c = true
    · cases hm : matchMer r with
      | some x =>
        obtain ⟨mer, r2⟩ := x
        have hs := matchMer_sound hm
        simp only [takeOptSpaceMer, hsp, if_true, hm]
        exact ⟨by simp [hs.1], Or.inr (Or.inr (Or.inr ⟨c, mer, rfl, hsp, hs.2⟩))⟩
      | none =>
        simp only [takeOptSpaceMer, hsp, if_true, hm]
        exact ⟨rfl, Or.inr (Or.inl ⟨c, rfl, hsp⟩)⟩
    · have hb : isJsSpace c = false := by simpa using hsp
      cases hm : matchMer (c :: r) with
      | some x =>
        obtain ⟨mer, r2⟩ := x
        have hs := matchMer_sound hm
        simp only [takeOptSpaceMer, hb, Bool.false_eq_true, if_false, hm]
        exact ⟨hs.1, Or.inr (Or.inr (Or.inl hs.2))⟩
      | none =>
        simp only [takeOptSpaceMer, hb, Bool.false_eq_true, if_false, hm]
        exact ⟨rfl, Or.inl rfl⟩

/-! ## Soundness and completeness of the date matcher and its scan -/

theorem matchDateAt_sound {l : List Char} {g : DateGroups} {r : List Char}
    (h : matchDateAt l = some (g, r)) : l = g.flat ++ r ∧ goodGroups g := by
  cases h1 : takeDigits12 l with
  | none => simp [matchDateAt, h1] at h
  | some p1 =>
    obtain ⟨d, r1⟩ := p1
    cases h2 : takeSep r1 with
    | none => simp [matchDateAt, h1, h2] at h
    | some p2 =>
      obtain ⟨c1, r2⟩ := p2
      cases h3 : takeDigits12 r2 with
      | none => simp [matchDateAt, h1, h2, h3] at h
      | some p3 =>
        obtain ⟨m, r3⟩ := p3
        cases h4 : takeSep r3 with
        | none => simp [matchDateAt, h1, h2, h3, h4] at h
        | some p4 =>
          obtain ⟨c2, r4⟩ := p4
          cases h5 : takeYear r4 with
          | none => simp [matchDateAt, h1, h2, h3, h4, h5] at h
          | some p5 =>
            obtain ⟨y, r5⟩ := p5
            simp only [matchDateAt, h1, h2, h3, h4, h5, Option.some.injEq,
              Prod.mk.injEq] at h
            obtain ⟨hg, hr⟩ := h
            subst hg; subst hr
            have s1 := takeDigits12_sound h1
            have s2 := takeSep_sound h2
            have s3 := takeDigits12_sound h3
            have s4 := takeSep_sound h4
            have s5 := takeYear_sound h5
            constructor
            · rw [s1.1, s2.1, s3.1, s4.1, s5.1]
              simp [DateGroups.flat]
            · exact ⟨s1.2.1, s1.2.2.1, s1.2.2.2, s2.2, s3.2.1, s3.2.2.1, s3.2.2.2,
                s4.2, s5.2.1, s5.2.2.1, s5.2.2.2⟩

theorem takeDigits12_eq (d r : List Char) (h1 : 1 ≤ d.length) (h2 : d.length ≤ 2)
    (hd : allDigits d) (hr : ∀ c, r.head? = some c → isDigitChar c = false) :
    takeDigits12 (d ++ r) = some (d, r) := by
  have hneg : ¬(d.length = 0 ∨ 2 < d.length) := by omega
  simp only [takeDigits12, splitDigits_eq_of d r hd hr]
  rw [if_neg hneg]

theorem takeYear_isSome (y post : List Char) (h2 : 2 ≤ y.length) (hd : allDigits y) :
    (takeYear (y ++ post)).isSome := by
  rcases splitDigits_append_digits y post hd with ⟨ext, rest, hsp⟩
  have hneg : ¬((y ++ ext).length < 2) := by
    simp only [List.length_append]; omega
  simp only [takeYear, hsp]
  rw [if_neg hneg]
  simp

theorem matchDateAt_isSome_of_good {g : DateGroups} (hg : goodGroups g) (post : List Char) :
    (matchDateAt (g.flat ++ post)).isSome := by
  obtain ⟨h1, h2, h3, h4, h5, h6, h7, h8, h9, h10, h11⟩ := hg
  have e0 : g.flat ++ post
      = g.day ++ (g.sep1 :: (g.month ++ (g.sep2 :: (g.year ++ post)))) := by
    simp [DateGroups.flat]
  have e1 : takeDigits12 (g.day ++ (g.sep1 :: (g.month ++ (g.sep2 :: (g.year ++ post)))))
      = some (g.day, g.sep1 :: (g.month ++ (g.sep2 :: (g.year ++ post)))) :=
    takeDigits12_eq _ _ h1 h2 h3
      (fun c hc => by rw [← Option.some.inj hc]; exact sep_not_digit h4)
  have e2 : takeSep (g.sep1 :: (g.month ++ (g.sep2 :: (g.year ++ post))))
      = some (g.sep1, g.month ++ (g.sep2 :: (g.year ++ post))) := by
    simp [takeSep, h4]
  have e3 : takeDigits12 (g.month ++ (g.sep2 :: (g.year ++ post)))
      = some (g.month, g.sep2 :: (g.year ++ post)) :=
    takeDigits12_eq _ _ h5 h6 h7
      (fun c hc => by rw [← Option.some.inj hc]; exact sep_not_digit h8)
  have e4 : takeSep (g.sep2 :: (g.year ++ post)) = some (g.sep2, g.year ++ post) := by
    simp [takeSep, h8]
  have e5 := takeYear_isSome g.year post h9 h11
  rw [e0]
  cases hy : takeYear (g.year ++ post) with
  | none => rw [hy] at e5; simp at e5
  | some p =>
    obtain ⟨y, r5⟩ := p
    simp [matchDateAt, e1, e2, e3, e4, hy]

theorem searchDate_sound {l p : List Char} {g : DateGroups} {r : List Char}
    (h : searchDate l = some (p, g, r)) : l = p ++ (g.flat ++ r) ∧ goodGroups g := by
  induction l generalizing p with
  | nil => simp [searchDate] at h
  | cons c rest ih =>
    cases hm : matchDateAt (c :: rest) with
    | some pr =>
      obtain ⟨g0, r0⟩ := pr
      simp only [searchDate, hm, Option.some.injEq, Prod.mk.injEq] at h
      obtain ⟨hp, hg, hr⟩ := h
      subst hp; subst hg; subst hr
      have hs := matchDateAt_sound hm
      exact ⟨by simpa using hs.1, hs.2⟩
    | none =>
      cases hs : searchDate rest with
      | some pgr =>
        obtain ⟨p1, g1, r1⟩ := pgr
        simp only [searchDate, hm, hs, Option.some.injEq, Prod.mk.injEq] at h
        obtain ⟨hp, hg, hr⟩ := h
        subst hp; subst hg; subst hr
        have hrec := ih hs
        exact ⟨by rw [List.cons_append, ← hrec.1], hrec.2⟩
      | none => simp [searchDate, hm, hs] at h

theorem searchDate_isSome {l pre post : List Char} {g : DateGroups} (hg : goodGroups g)
    (hl : l = pre ++ (g.flat ++ post)) : (searchDate l).isSome := by
  induction pre generalizing l with
  | nil =>
    subst hl
    simp only [List.nil_append]
    have hm := matchDateAt_isSome_of_good hg post
    obtain ⟨c, rest, hcr⟩ : ∃ c rest, g.flat ++ post = c :: rest := by
      cases hf : g.flat ++ post with
      | nil =>
        exfalso
        rw [List.append_eq_nil] at hf
        have : g.flat = [] := hf.1
        simp [DateGroups.flat, List.append_eq_nil] at this
      | cons c rest => exact ⟨c, rest, rfl⟩
    rw [hcr]; rw [hcr] at hm
    cases hmm : matchDateAt (c :: rest) with
    | none => rw [hmm] at hm; simp at hm
    | some pr =>
      obtain ⟨g0, r0⟩ := pr
      simp [searchDate, hmm]
  | cons c pre2 ih =>
    subst hl
    simp only [List.cons_append]
    cases hmm : matchDateAt (c :: (pre2 ++ (g.flat ++ post))) with
    | some pr =>
      obtain ⟨g0, r0⟩ := pr
      simp [searchDate, hmm]
    | none =>
      have hrec := ih rfl
      cases hs : searchDate (pre2 ++ (g.flat ++ post)) with
      | none => rw [hs] at hrec; simp at hrec
      | some pgr =>
        obtain ⟨p1, g1, r1⟩ := pgr
        simp [searchDate, hmm, hs]

theorem searchDate_eq_none_iff {l : List Char} :
    searchDate l = none ↔ ¬ ∃ pre t post, l = pre ++ (t ++ post) ∧ dateShape t := by
  constructor
  · rintro h ⟨pre, t, post, hl, g, hg, rfl⟩
    have hsome := searchDate_isSome hg hl
    rw [h] at hsome
    simp at hsome
  · intro h
    cases hs : searchDate l with
    | none => rfl
    | some pgr =>
      obtain ⟨p, g, r⟩ := pgr
      have hsnd := searchDate_sound hs
      exact absurd ⟨p, g.flat, r, hsnd.1, g, hsnd.2, rfl⟩ h

/-! ## Soundness and completeness of the full date/time matcher and its scan -/

theorem matchTimeTail_sound {l tm r : List Char} (h : matchTimeTail l = some (tm, r)) :
    l = tm ++ r ∧ timeTailShape tm := by
  cases h1 : takeSpaces1 l with
  | none => simp [matchTimeTail, h1] at h
  | some p1 =>
    obtain ⟨sp, r1⟩ := p1
    cases h2 : takeDigits12 r1 with
    | none => simp [matchTimeTail, h1, h2] at h
    | some p2 =>
      obtain ⟨hh, r2⟩ := p2
      cases h3 : takeColon r2 with
      | none => simp [matchTimeTail, h1, h2, h3] at h
      | some r3 =>
        cases h4 : takeMinutes r3 with
        | none => simp [matchTimeTail, h1, h2, h3, h4] at h
        | some p4 =>
          obtain ⟨mm, r4⟩ := p4
          obtain ⟨tl1, tl2, htl⟩ : ∃ a b, takeOptSpaceMer r4 = (a, b) := ⟨_, _, rfl⟩
          have s5 := takeOptSpaceMer_sound r4
          rw [htl] at s5
          simp only [matchTimeTail, h1, h2, h3, h4, htl, Option.some.injEq,
            Prod.mk.injEq] at h
          obtain ⟨htm, hr⟩ := h
          subst htm; subst hr
          have s1 := takeSpaces1_sound h1
          have s2 := takeDigits12_sound h2
          have s3 := takeColon_sound h3
          have s4 := takeMinutes_sound h4
          constructor
          · rw [s1.1, s2.1, s3, s4.1, s5.1]
            simp
          · exact ⟨sp, hh, mm, tl1, rfl, s1.2.1, s1.2.2,
              s2.2.1, s2.2.2.1, s2.2.2.2, s4.2.1, s4.2.2, s5.2⟩

theorem matchFullAt_sound {l m r : List Char} (h : matchFullAt l = some (m, r)) :
    l = m ++ r ∧ fullShape m := by
  cases hd : matchDateAt l with
  | none => simp [matchFullAt, hd] at h
  | some pr =>
    obtain ⟨g, r1⟩ := pr
    have hds := matchDateAt_sound hd
    cases ht : matchTimeTail r1 with
    | some tmr =>
      obtain ⟨tm, r2⟩ := tmr
      have hts := matchTimeTail_sound ht
      simp only [matchFullAt, hd, ht, Option.some.injEq, Prod.mk.injEq] at h
      obtain ⟨hm, hr⟩ := h
      subst hm; subst hr
      refine ⟨?_, ⟨g, tm, hds.2, Or.inr hts.2, rfl⟩⟩
      rw [hds.1, hts.1, List.append_assoc]
    | none =>
      simp only [matchFullAt, hd, ht, Option.some.injEq, Prod.mk.injEq] at h
      obtain ⟨hm, hr⟩ := h
      subst hm; subst hr
      exact ⟨hds.1, ⟨g, [], hds.2, Or.inl rfl, by simp⟩⟩

theorem matchFullAt_isSome_iff {l : List Char} :
    (matchFullAt l).isSome ↔ (matchDateAt l).isSome := by
  cases hd : matchDateAt l with
  | none => simp [matchFullAt, hd]
  | some pr =>
    obtain ⟨g, r⟩ := pr
    cases ht : matchTimeTail r with
    | none => simp [matchFullAt, hd, ht]
    | some tmr =>
      obtain ⟨tm, r2⟩ := tmr
      simp [matchFullAt, hd, ht]

theorem searchFull_sound {l p m r : List Char} (h : searchFull l = some (p, m, r)) :
    l = p ++ (m ++ r) ∧ fullShape m := by
  induction l generalizing p with
  | nil => simp [searchFull] at h
  | cons c rest ih =>
    cases hm : matchFullAt (c :: rest) with
    | some pr =>
      obtain ⟨m0, r0⟩ := pr
      simp only [searchFull, hm, Option.some.injEq, Prod.mk.injEq] at h
      obtain ⟨hp, hm2, hr⟩ := h
      subst hp; subst hm2; subst hr
      have hs := matchFullAt_sound hm
      exact ⟨by simpa using hs.1, hs.2⟩
    | none =>
      cases hs : searchFull rest with
      | some pmr =>
        obtain ⟨p1, m1, r1⟩ := pmr
        simp only [searchFull, hm, hs, Option.some.injEq, Prod.mk.injEq] at h
        obtain ⟨hp, hm2, hr⟩ := h
        subst hp; subst hm2; subst hr
        have hrec := ih hs
        exact ⟨by rw [List.cons_append, ← hrec.1], hrec.2⟩
      | none => simp [searchFull, hm, hs] at h

theorem searchFull_isSome {l pre post t : List Char} (ht : fullShape t)
    (hl : l = pre ++ (t ++ post)) : (searchFull l).isSome := by
  obtain ⟨g, tm, hg, -, rfl⟩ := ht
  rw [List.append_assoc] at hl
  induction pre generalizing l with
  | nil =>
    subst hl
    simp only [List.nil_append]
    have hm := matchDateAt_isSome_of_good hg (tm ++ post)
    obtain ⟨c, rest, hcr⟩ : ∃ c rest, g.flat ++ (tm ++ post) = c :: rest := by
      cases hf : g.flat ++ (tm ++ post) with
      | nil =>
        exfalso
        rw [List.append_eq_nil] at hf
        have : g.flat = [] := hf.1
        simp [DateGroups.flat, List.append_eq_nil] at this
      | cons c rest => exact ⟨c, rest, rfl⟩
    rw [hcr]; rw [hcr] at hm
    have hmf : (matchFullAt (c :: rest)).isSome := matchFullAt_isSome_iff.mpr hm
    cases hmm : matchFullAt (c :: rest) with
    | none => rw [hmm] at hmf; simp at hmf
    | some pr =>
      obtain ⟨m0, r0⟩ := pr
      simp [searchFull, hmm]
  | cons c pre2 ih =>
    subst hl
    simp only [List.cons_append]
    cases hmm : matchFullAt (c :: (pre2 ++ (g.flat ++ (tm ++ post)))) with
    | some pr =>
      obtain ⟨m0, r0⟩ := pr
      simp [searchFull, hmm]
    | none =>
      have hrec := ih rfl
      cases hs : searchFull (pre2 ++ (g.flat ++ (tm ++ post))) with
      | none => rw [hs] at hrec; simp at hrec
      | some pmr =>
        obtain ⟨p1, m1, r1⟩ := pmr
        simp [searchFull, hmm, hs]

/-! ## Lemmas about one tick of the due-check loop -/

theorem check_mono {now : Int} {ts : List Task} {f : List Nat} {i : Nat}
    (h : i ∈ f) : i ∈ (checkDueTasks now ts f).1 := by
  induction ts generalizing f with
  | nil => simpa [checkDueTasks] using h
  | cons t ts ih =>
    by_cases hc : t.completed = true ∨ t.id ∈ f
    · simp only [checkDueTasks, if_pos hc]
      exact ih h
    · cases hp : parseUserDate t.userDate with
      | none =>
        simp only [checkDueTasks, if_neg hc, hp]
        exact ih h
      | some dt =>
        by_cases hw : -5000 ≤ jsDateToMillis dt - now ∧ jsDateToMillis dt - now ≤ 5000
        · simp only [checkDueTasks, if_neg hc, hp, if_pos hw]
          exact ih (List.mem_cons_of_mem _ h)
        · simp only [checkDueTasks, if_neg hc, hp, if_neg hw]
          exact ih h

theorem check_fresh {now : Int} {ts : List Task} {f : List Nat} {i : Nat}
    (h : i ∈ (checkDueTasks now ts f).2) : i ∉ f := by
  induction ts generalizing f with
  | nil => simp [checkDueTasks] at h
  | cons t ts ih =>
    by_cases hc : t.completed = true ∨ t.id ∈ f
    · simp only [checkDueTasks, if_pos hc] at h
      exact ih h
    · cases hp : parseUserDate t.userDate with
      | none =>
        simp only [checkDueTasks, if_neg hc, hp] at h
        exact ih h
      | some dt =>
        by_cases hw : -5000 ≤ jsDateToMillis dt - now ∧ jsDateToMillis dt - now ≤ 5000
        · simp only [checkDueTasks, if_neg hc, hp, if_pos hw] at h
          rcases List.mem_cons.mp h with rfl | h2
          · exact fun hin => hc (Or.inr hin)
          · intro hin
            exact ih h2 (List.mem_cons_of_mem _ hin)
        · simp only [checkDueTasks, if_neg hc, hp, if_neg hw] at h
          exact ih h

theorem check_nodup (now : Int) (ts : List Task) (f : List Nat) :
    (checkDueTasks now ts f).2.Nodup := by
  induction ts generalizing f with
  | nil => simp [checkDueTasks]
  | cons t ts ih =>
    by_cases hc : t.completed = true ∨ t.id ∈ f
    · simp only [checkDueTasks, if_pos hc]
      exact ih f
    · cases hp : parseUserDate t.userDate with
      | none =>
        simp only [checkDueTasks, if_neg hc, hp]
        exact ih f
      | some dt =>
        by_cases hw : -5000 ≤ jsDateToMillis dt - now ∧ jsDateToMillis dt - now ≤ 5000
        · simp only [checkDueTasks, if_neg hc, hp, if_pos hw]
          refine List.nodup_cons.mpr ⟨?_, ih (t.id :: f)⟩
          intro hin
          exact check_fresh hin (List.mem_cons_self _ _)
        · simp only [checkDueTasks, if_neg hc, hp, if_neg hw]
          exact ih f

theorem check_notified_fired {now : Int} {ts : List Task} {f : List Nat} {i : Nat}
    (h : i ∈ (checkDueTasks now ts f).2) : i ∈ (checkDueTasks now ts f).1 := by
  induction ts generalizing f with
  | nil => simp [checkDueTasks] at h
  | cons t ts ih =>
    by_cases hc : t.completed = true ∨ t.id ∈ f
    · simp only [checkDueTasks, if_pos hc] at h ⊢
      exact ih h
    · cases hp : parseUserDate t.userDate with
      | none =>
        simp only [checkDueTasks, if_neg hc, hp] at h ⊢
        exact ih h
      | some dt =>
        by_cases hw : -5000 ≤ jsDateToMillis dt - now ∧ jsDateToMillis dt - now ≤ 5000
        · simp only [checkDueTasks, if_neg hc, hp, if_pos hw] at h ⊢
          rcases List.mem_cons.mp h with rfl | h2
          · exact check_mono (List.mem_cons_self _ _)
          · exact ih h2
        · simp only [checkDueTasks, if_neg hc, hp, if_neg hw] at h ⊢
          exact ih h

theorem check_mem_ids {now : Int} {ts : List Task} {f : List Nat} {i : Nat}
    (h : i ∈ (checkDueTasks now ts f).2) : i ∈ ts.map Task.id := by
  induction ts generalizing f with
  | nil => simp [checkDueTasks] at h
  | cons t ts ih =>
    by_cases hc : t.completed = true ∨ t.id ∈ f
    · simp only [checkDueTasks, if_pos hc] at h
      exact List.mem_cons_of_mem _ (ih h)
    · cases hp : parseUserDate t.userDate with
      | none =>
        simp only [checkDueTasks, if_neg hc, hp] at h
        exact List.mem_cons_of_mem _ (ih h)
      | some dt =>
        by_cases hw : -5000 ≤ jsDateToMillis dt - now ∧ jsDateToMillis dt - now ≤ 5000
        · simp only [checkDueTasks, if_neg hc, hp, if_pos hw] at h
          rcases List.mem_cons.mp h with rfl | h2
          · exact List.mem_cons_self _ _
          · exact List.mem_cons_of_mem _ (ih h2)
        · simp only [checkDueTasks, if_neg hc, hp, if_neg hw] at h
          exact List.mem_cons_of_mem _ (ih h)

/-- Characterization of one tick: assuming distinct task ids, a task of the
list is notified during the tick exactly when its date parses to an instant
within the 5000 ms window, it is not completed, and it was not already in
the notified set. -/
theorem check_char {now : Int} {ts : List Task} {f : List Nat}
    (hnd : (ts.map Task.id).Nodup) {t : Task} (ht : t ∈ ts) :
    t.id ∈ (checkDueTasks now ts f).2 ↔
      ((∃ dt, parseUserDate t.userDate = some dt ∧
          -5000 ≤ jsDateToMillis dt - now ∧ jsDateToMillis dt - now ≤ 5000) ∧
        t.completed = false ∧ t.id ∉ f) := by
  induction ts generalizing f with
  | nil => simp at ht
  | cons x ts ih =>
    have hx : x.id ∉ ts.map Task.id := (List.nodup_cons.mp hnd).1
    have hnd2 : (ts.map Task.id).Nodup := (List.nodup_cons.mp hnd).2
    rcases List.mem_cons.mp ht with rfl | hmem
    · -- the task under scrutiny is the head of the list
      by_cases hc : t.completed = true ∨ t.id ∈ f
      · simp only [checkDueTasks, if_pos hc]
        constructor
        · intro h
          exact absurd (check_mem_ids h) hx
        · rintro ⟨-, hcomp, hnin⟩
          rcases hc with hc | hc
          · rw [hcomp] at hc; exact absurd hc (by simp)
          · exact absurd hc hnin
      · have hc2 : t.completed ≠ true ∧ t.id ∉ f := by
          push_neg at hc; exact hc
        have hcomp : t.completed = false := by
          simpa using hc2.1
        cases hp : parseUserDate t.userDate with
        | none =>
          simp only [checkDueTasks, if_neg hc, hp]
          constructor
          · intro h
            exact absurd (check_mem_ids h) hx
          · rintro ⟨⟨dt, hdt, -⟩, -, -⟩
            exact absurd hdt (by simp)
        | some dt =>
          by_cases hw : -5000 ≤ jsDateToMillis dt - now ∧ jsDateToMillis dt - now ≤ 5000
          · simp only [checkDueTasks, if_neg hc, hp, if_pos hw]
            constructor
            · intro _
              exact ⟨⟨dt, rfl, hw⟩, hcomp, hc2.2⟩
            · intro _
              exact List.mem_cons_self _ _
          · simp only [checkDueTasks, if_neg hc, hp, if_neg hw]
            constructor
            · intro h
              exact absurd (check_mem_ids h) hx
            · rintro ⟨⟨dt2, hdt2, hw2⟩, -, -⟩
              exact absurd hw2 (Option.some.inj hdt2 ▸ hw)
    · -- the task under scrutiny is in the tail
      have hne : t.id ≠ x.id := by
        intro he
        exact hx (he ▸ List.mem_map_of_mem Task.id hmem)
      by_cases hc : x.completed = true ∨ x.id ∈ f
      · simp only [checkDueTasks, if_pos hc]
        exact ih hnd2 hmem
      · cases hp : parseUserDate x.userDate with
        | none =>
          simp only [checkDueTasks, if_neg hc, hp]
          exact ih hnd2 hmem
        | some dt =>
          by_cases hw : -5000 ≤ jsDateToMillis dt - now ∧ jsDateToMillis dt - now ≤ 5000
          · simp only [checkDueTasks, if_neg hc, hp, if_pos hw]
            rw [List.mem_cons]
            constructor
            · rintro (he | h2)
              · exact absurd he hne
              · have := (ih hnd2 hmem (f := x.id :: f)).mp h2
                exact ⟨this.1, this.2.1, fun hin => this.2.2 (List.mem_cons_of_mem _ hin)⟩
            · rintro ⟨hdt, hcomp, hnin⟩
              refine Or.inr ((ih hnd2 hmem (f := x.id :: f)).mpr ⟨hdt, hcomp, ?_⟩)
              intro hin
              rcases List.mem_cons.mp hin with he | hin2
              · exact hne he
              · exact hnin hin2
          · simp only [checkDueTasks, if_neg hc, hp, if_neg hw]
            exact ih hnd2 hmem

/-! ## Lemmas about a whole session of ticks -/

theorem run_inv (ticks : List (Int × List Task)) (f : List Nat) :
    (∀ i ∈ f, i ∈ (runSession ticks f).1) ∧
    (∀ i ∈ (runSession ticks f).2, i ∈ (runSession ticks f).1) ∧
    (∀ i ∈ f, i ∉ (runSession ticks f).2) ∧
    (runSession ticks f).2.Nodup := by
  induction ticks generalizing f with
  | nil =>
    refine ⟨fun i hi => by simpa [runSession] using hi, ?_, ?_, by simp [runSession]⟩
    · intro i hi; simp [runSession] at hi
    · intro i hi; simp [runSession]
  | cons tick rest ih =>
    obtain ⟨now, ts⟩ := tick
    have ihr := ih (checkDueTasks now ts f).1
    refine ⟨?_, ?_, ?_, ?_⟩
    · intro i hi
      simp only [runSession]
      exact ihr.1 i (check_mono hi)
    · intro i hi
      simp only [runSession] at hi ⊢
      rcases List.mem_append.mp hi with h1 | h2
      · exact ihr.1 i (check_notified_fired h1)
      · exact ihr.2.1 i h2
    · intro i hi
      simp only [runSession]
      rw [List.mem_append]
      push_neg
      exact ⟨fun hn => check_fresh hn hi, ihr.2.2.1 i (check_mono hi)⟩
    · simp only [runSession]
      rw [List.nodup_append]
      refine ⟨check_nodup now ts f, ihr.2.2.2, ?_⟩
      intro i hi hj
      exact ihr.2.2.1 i (check_notified_fired hi) hj

/-! ## Filter length lemma -/

theorem length_filter_add_length_filter_not (p : Task → Bool) (ts : List Task) :
    (ts.filter p).length + (ts.filter fun t => !(p t)).length = ts.length := by
  induction ts with
  | nil => simp
  | cons t ts ih =>
    by_cases hp : p t = true
    · simp [List.filter_cons, hp, ih]
      omega
    · have hp2 : p t = false := by simpa using hp
      simp [List.filter_cons, hp2, ih]
      omega

/-! ## Sanity examples (computed by the embedded definitions) -/

example : extractDateTime "Buy milk 25/12/2025 6:30 PM" = some "25/12/2025 6:30 PM" := by decide

example : removeDateTime "Buy milk 25/12/2025 6:30 PM" = "Buy milk" := by decide

example : extractDateTime "Call mom 9:00 AM" = none := by decide

example : extractTimeOnly "Call mom 9:00 AM" = some "9:00 AM" := by decide

example : parseUserDate (some "31-01-26 11:59 PM") =
    some { year := 2026, month := 0, day := 31, hours := 23, minutes := 59 } := by decide

example : jsDateToMillis { year := 1970, month := 0, day := 1, hours := 0, minutes := 0 } = 0 := by
  decide

/-! ## The claims -/

/-- Claim C1: within one session of the reminder loop each task is notified
at most once: the concatenated notification lists of all ticks contain no
id twice, an id already in the fired set at the start of the session is
never notified at any later tick — even though the task lists of the ticks
are completely arbitrary, which covers any later edit of a task's due date —
and every id notified during the session is in the fired set afterwards. -/
theorem claim_C1_notified_at_most_once (ticks : List (Int × List Task)) (fired : List Nat) :
    (runSession ticks fired).2.Nodup ∧
    (∀ i ∈ fired, i ∉ (runSession ticks fired).2) ∧
    (∀ i ∈ (runSession ticks fired).2, i ∈ (runSession ticks fired).1) := by
  have h := run_inv ticks fired
  exact ⟨h.2.2.2, h.2.2.1, h.2.1⟩

/-- Witness for C1 at a concrete two-tick session: the initially fired id 7
is never notified. -/
theorem claim_C1_notified_at_most_once_witness :
    (7 : Nat) ∉ (runSession
      [(0, [⟨7, "a", some "01-01-1970 12:00 AM", false⟩]),
       (1000, [⟨7, "a", some "01-01-1970 12:00 AM", false⟩])] [7]).2 :=
  (claim_C1_notified_at_most_once
    [(0, [⟨7, "a", some "01-01-1970 12:00 AM", false⟩]),
     (1000, [⟨7, "a", some "01-01-1970 12:00 AM", false⟩])] [7]).2.1 7 (by simp)

/-- Claim C2: on a tick of the due-check with distinct task ids, a task of
the list transitions to fired (its id appears in the tick's notification
list) exactly when its due date parses, the difference between the due
instant and `now` lies within the inclusive 5000 ms window, the task is not
completed, and its id is not already in the fired set; in particular a
completed task never transitions. -/
theorem claim_C2_fire_characterization (now : Int) (ts : List Task) (fired : List Nat)
    (hnd : (ts.map Task.id).Nodup) (t : Task) (ht : t ∈ ts) :
    t.id ∈ (checkDueTasks now ts fired).2 ↔
      ((∃ dt, parseUserDate t.userDate = some dt ∧
          -5000 ≤ jsDateToMillis dt - now ∧ jsDateToMillis dt - now ≤ 5000) ∧
        t.completed = false ∧ t.id ∉ fired) :=
  check_char hnd ht

/-- Witness for C2 at a concrete tick: a non-completed task due exactly at
`now` fires. -/
theorem claim_C2_fire_characterization_witness :
    (5 : Nat) ∈ (checkDueTasks 0 [⟨5, "pay rent", some "01-01-1970 12:00 AM", false⟩] []).2 := by
  have h := claim_C2_fire_characterization 0
    [⟨5, "pay rent", some "01-01-1970 12:00 AM", false⟩] []
    (by decide) ⟨5, "pay rent", some "01-01-1970 12:00 AM", false⟩ (by simp)
  exact h.mpr ⟨⟨⟨1970, 0, 1, 0, 0⟩, by decide, by decide, by decide⟩, rfl, by simp⟩

/-- Claim C3 as stated is false on the code: for the input
`Call mom 9:00 AM` the standalone time with meridiem marker is recognized
by `extractTimeOnly`, yet the stored task text still contains it, because
`removeDateTime` only removes matches of the date pattern. -/
theorem claim_C3_counterexample :
    extractTimeOnly "Call mom 9:00 AM" = some "9:00 AM" ∧
    extractDateTime "Call mom 9:00 AM" = none ∧
    addTask "Call mom 9:00 AM" 11 9 2026 =
      some { text := "Call mom 9:00 AM", userDate := some "11-10-2026", completed := false } ∧
    removeDateTime "Call mom 9:00 AM" ≠ "Call mom" :=
  ⟨by decide, by decide, by decide, by decide⟩

/-- Claim C3 amended: the stored task text equals the input with the first
match of the full date(+time) pattern removed and the result trimmed; when
the input contains no match of the date pattern — even when a standalone
time with meridiem marker is present — the stored text is the whole input,
merely trimmed. -/
theorem claim_C3_text_cleaning (inp : String) (day month0 year : Nat) (tk : TaskInsert)
    (h : addTask inp day month0 year = some tk) :
    tk.text = removeDateTime inp ∧
    (∀ p m r, searchFull inp.data = some (p, m, r) →
      tk.text = String.mk (jsTrim (p ++ r))) ∧
    (searchFull inp.data = none → tk.text = String.mk (jsTrim inp.data)) := by
  simp only [addTask] at h
  split at h
  · exact absurd h (by simp)
  · have htk : tk.text = removeDateTime inp := by
      rw [← Option.some.inj h]
    refine ⟨htk, ?_, ?_⟩
    · intro p m r hs
      rw [htk]
      simp [removeDateTime, hs]
    · intro hs
      rw [htk]
      simp [removeDateTime, hs]

/-- Witness for the amended C3: the time-only input keeps its time text. -/
theorem claim_C3_text_cleaning_witness :
    ({ text := "Call mom 9:00 AM", userDate := some "11-10-2026",
        completed := false } : TaskInsert).text
      = String.mk (jsTrim ("Call mom 9:00 AM" : String).data) :=
  (claim_C3_text_cleaning "Call mom 9:00 AM" 11 9 2026
    { text := "Call mom 9:00 AM", userDate := some "11-10-2026", completed := false }
    (by decide)).2.2 (by decide)

/-- Claim C4: whenever `extractDateTime` returns a substring, feeding that
substring to `parseUserDate` succeeds — the extraction pattern used at
insertion time and the parsing pattern used at notification time agree. -/
theorem claim_C4_roundtrip (s t : String) (h : extractDateTime s = some t) :
    (parseUserDate (some t)).isSome := by
  rw [extractDateTime, Option.map_eq_some'] at h
  obtain ⟨⟨p, m, r⟩, hs, ht⟩ := h
  have hsnd := searchFull_sound hs
  obtain ⟨g, tm, hg, -, hm⟩ := hsnd.2
  have hne : ¬ t = "" := by
    intro he
    have hdata : t.data = [] := by rw [he]
    rw [← ht] at hdata
    have : m = [] := hdata
    rw [hm] at this
    rcases List.append_eq_nil.mp this with ⟨hflat, -⟩
    simp [DateGroups.flat, List.append_eq_nil] at hflat
  have hdata : t.data = g.flat ++ tm := by
    rw [← ht, hm]
  have hsome : (searchDate t.data).isSome :=
    @searchDate_isSome t.data [] tm g hg (by rw [hdata, List.nil_append])
  cases hsd : searchDate t.data with
  | none => rw [hsd] at hsome; simp at hsome
  | some pgr =>
    obtain ⟨p2, g2, r2⟩ := pgr
    simp only [parseUserDate, if_neg hne, hsd]
    cases hst : searchPlainTime t.data with
    | none => simp
    | some v =>
      obtain ⟨a, b, c⟩ := v
      simp

/-- Witness for C4 on the specification's own example string. -/
theorem claim_C4_roundtrip_witness :
    (parseUserDate (some "25/12/2025 6:30 PM")).isSome :=
  claim_C4_roundtrip "Buy milk 25/12/2025 6:30 PM" "25/12/2025 6:30 PM" (by decide)

/-- Claim C5: for every input containing a date segment, `parseUserDate`
makes the 1-based month 0-based, adds 2000 to a 2-digit year, defaults the
time to 00:00 when no time segment is present, and converts a 12-hour clock
with meridiem marker to 24-hour time as `12 AM → 0`, `12 PM → 12`, other
`PM` hours plus 12, other `AM` hours unchanged; in particular the input
`31-01-26 11:59 PM` yields day 31, month 0, year 2026, hour 23, minute 59. -/
theorem claim_C5_parse_normalization :
    (∀ (s : String) (p : List Char) (g : DateGroups) (r : List Char),
      searchDate s.data = some (p, g, r) →
      ∃ dt, parseUserDate (some s) = some dt ∧
        dt.day = (digitsToNat g.day : Int) ∧
        dt.month = (digitsToNat g.month : Int) - 1 ∧
        dt.year = (if digitsToNat g.year < 100 then (digitsToNat g.year : Int) + 2000
          else (digitsToNat g.year : Int)) ∧
        (searchPlainTime s.data = none → dt.hours = 0 ∧ dt.minutes = 0) ∧
        (∀ hd mm mer, searchPlainTime s.data = some (hd, mm, mer) →
          dt.minutes = (digitsToNat mm : Int) ∧
          dt.hours = (match mer with
            | some Mer.pm =>
              if (digitsToNat hd : Int) = 12 then 12 else (digitsToNat hd : Int) + 12
            | some Mer.am =>
              if (digitsToNat hd : Int) = 12 then 0 else (digitsToNat hd : Int)
            | none => (digitsToNat hd : Int)))) ∧
    parseUserDate (some "31-01-26 11:59 PM") =
      some { year := 2026, month := 0, day := 31, hours := 23, minutes := 59 } := by
  constructor
  · intro s p g r hsd
    have hne : ¬ s = "" := by
      intro he
      have hdata : s.data = [] := by rw [he]
      rw [hdata] at hsd
      simp [searchDate] at hsd
    cases hst : searchPlainTime s.data with
    | none =>
      simp only [parseUserDate, if_neg hne, hsd, hst]
      refine ⟨_, rfl, rfl, rfl, rfl, fun _ => ⟨rfl, rfl⟩, ?_⟩
      intro hd mm mer hcontr
      exact absurd hcontr (by simp)
    | some v =>
      obtain ⟨hd0, mm0, mer0⟩ := v
      simp only [parseUserDate, if_neg hne, hsd, hst]
      refine ⟨_, rfl, rfl, rfl, rfl, fun hcontr => absurd hcontr (by simp), ?_⟩
      intro hd mm mer hsome
      have h3 : hd0 = hd ∧ mm0 = mm ∧ mer0 = mer := by
        have := Option.some.inj hsome
        exact ⟨congrArg (fun x => x.1) this,
          congrArg (fun x => x.2.1) this, congrArg (fun x => x.2.2) this⟩
      obtain ⟨rfl, rfl, rfl⟩ := h3
      cases mer0 with
      | none => exact ⟨rfl, rfl⟩
      | some m =>
        cases m with
        | am => by_cases h12 : (digitsToNat hd0 : Int) = 12 <;> simp [h12]
        | pm => by_cases h12 : (digitsToNat hd0 : Int) = 12 <;> simp [h12]
  · decide

/-- Witness for C5 on the date groups of `31-01-26 11:59 PM`. -/
theorem claim_C5_parse_normalization_witness :
    ∃ dt, parseUserDate (some "31-01-26 11:59 PM") = some dt ∧ dt.hours = 23 := by
  obtain ⟨dt, hdt, -, -, -, -, htime⟩ :=
    claim_C5_parse_normalization.1 "31-01-26 11:59 PM" []
      ⟨['3', '1'], '-', ['0', '1'], '-', ['2', '6']⟩ (" 11:59 PM".data) (by decide)
  refine ⟨dt, hdt, ?_⟩
  have h2 := htime ['1', '1'] ['5', '9'] (some Mer.pm) (by decide)
  rw [h2.2]
  decide

/-- Claim C6: on task creation, the stored `userDate` is the full date(+time)
match verbatim when one exists; otherwise, when a standalone time with
meridiem marker exists, it is today's date formatted `DD-MM-YYYY` (with no
time attached); otherwise it is absent. -/
theorem claim_C6_user_date_policy (inp : String) (day month0 year : Nat) (tk : TaskInsert)
    (h : addTask inp day month0 year = some tk) :
    (∀ f, extractDateTime inp = some f → tk.userDate = some f) ∧
    (extractDateTime inp = none → extractTimeOnly inp ≠ none →
      tk.userDate = some (getTodayDate day month0 year)) ∧
    (extractDateTime inp = none → extractTimeOnly inp = none → tk.userDate = none) := by
  simp only [addTask] at h
  split at h
  · exact absurd h (by simp)
  · have htk := (Option.some.inj h).symm
    refine ⟨?_, ?_, ?_⟩
    · intro f hf
      rw [htk]
      simp [hf]
    · intro hn hto
      cases hx : extractTimeOnly inp with
      | none => exact absurd hx hto
      | some x =>
        rw [htk]
        simp [hn, hx]
    · intro hn hto
      rw [htk]
      simp [hn, hto]

/-- Witness for C6 on a time-only input: the stored date is today stamped
`DD-MM-YYYY`. -/
theorem claim_C6_user_date_policy_witness :
    ({ text := "Call mom 9:00 AM", userDate := some "11-10-2026",
        completed := false } : TaskInsert).userDate = some (getTodayDate 11 9 2026) :=
  (claim_C6_user_date_policy "Call mom 9:00 AM" 11 9 2026
    { text := "Call mom 9:00 AM", userDate := some "11-10-2026", completed := false }
    (by decide)).2.1 (by decide) (by decide)

/-- Claim C7: when a string contains a substring of the full date/time shape
the extractor returns a shaped substring verbatim (the leftmost match), the
remover deletes exactly that occurrence and trims the rest, and when no
shaped substring exists the extractor returns absent. -/
theorem claim_C7_extract_verbatim (s : String) :
    ((∃ pre t post, s.data = pre ++ (t ++ post) ∧ fullShape t) →
      ∃ pre t post, s.data = pre ++ (t ++ post) ∧ fullShape t ∧
        extractDateTime s = some (String.mk t) ∧
        removeDateTime s = String.mk (jsTrim (pre ++ post))) ∧
    ((¬ ∃ pre t post, s.data = pre ++ (t ++ post) ∧ fullShape t) →
      extractDateTime s = none) := by
  constructor
  · rintro ⟨pre, t, post, hl, ht⟩
    have hsome := searchFull_isSome ht hl
    cases hs : searchFull s.data with
    | none => rw [hs] at hsome; simp at hsome
    | some pmr =>
      obtain ⟨p, m, r⟩ := pmr
      have hsnd := searchFull_sound hs
      exact ⟨p, m, r, hsnd.1, hsnd.2, by simp [extractDateTime, hs],
        by simp [removeDateTime, hs]⟩
  · intro hno
    cases hs : searchFull s.data with
    | none => simp [extractDateTime, hs]
    | some pmr =>
      obtain ⟨p, m, r⟩ := pmr
      have hsnd := searchFull_sound hs
      exact absurd ⟨p, m, r, hsnd.1, hsnd.2⟩ hno

/-- Witness for C7 on the specification's example input. -/
theorem claim_C7_extract_verbatim_witness :
    ∃ pre t post, ("Buy milk 25/12/2025 6:30 PM" : String).data = pre ++ (t ++ post) ∧
      fullShape t ∧
      extractDateTime "Buy milk 25/12/2025 6:30 PM" = some (String.mk t) ∧
      removeDateTime "Buy milk 25/12/2025 6:30 PM" = String.mk (jsTrim (pre ++ post)) :=
  (claim_C7_extract_verbatim "Buy milk 25/12/2025 6:30 PM").1
    ⟨"Buy milk ".data, "25/12/2025 6:30 PM".data, [], by decide,
      ⟨⟨['2', '5'], '/', ['1', '2'], '/', ['2', '0', '2', '5']⟩, " 6:30 PM".data,
        by decide,
        Or.inr ⟨[' '], ['6'], ['3', '0'], [' ', 'P', 'M'], by decide, by decide,
          by decide, by decide, by decide, by decide, by decide, by decide,
          Or.inr (Or.inr (Or.inr ⟨' ', ['P', 'M'], rfl, by decide,
            ⟨'P', 'M', rfl, by decide, by decide⟩⟩))⟩,
        by decide⟩⟩

/-- Claim C8: for each of the three filter modes the filter projection is the
subsequence of tasks satisfying the mode predicate (`active` keeps
non-completed tasks, `completed` keeps completed ones, `all` keeps every
task), it preserves the original order, and the kept and excluded tasks
together count the whole list. -/
theorem claim_C8_filter_projection (f : String)
    (hf : f = "all" ∨ f = "active" ∨ f = "completed") (ts : List Task) :
    List.Sublist (filteredTasks f ts) ts ∧
    (∀ t ∈ filteredTasks f ts, modePred f t = true) ∧
    (filteredTasks f ts).length + (ts.filter fun t => !(filterKeep f t)).length
      = ts.length ∧
    filteredTasks f ts = ts.filter (modePred f) := by
  have hfk : filterKeep f = modePred f := by
    rcases hf with rfl | rfl | rfl <;> funext t <;> simp [filterKeep, modePred]
  refine ⟨?_, ?_, ?_, ?_⟩
  · exact List.filter_sublist ts
  · intro t htm
    have htm2 : t ∈ ts.filter (modePred f) := by
      rw [filteredTasks, hfk] at htm
      exact htm
    exact List.of_mem_filter htm2
  · exact length_filter_add_length_filter_not (filterKeep f) ts
  · rw [filteredTasks, hfk]

/-- Witness for C8 in mode `active` on a two-task list. -/
theorem claim_C8_filter_projection_witness :
    List.Sublist
      (filteredTasks "active" [⟨1, "a", none, false⟩, ⟨2, "b", none, true⟩])
      [⟨1, "a", none, false⟩, ⟨2, "b", none, true⟩] ∧
    (∀ t ∈ filteredTasks "active" [⟨1, "a", none, false⟩, ⟨2, "b", none, true⟩],
      modePred "active" t = true) ∧
    (filteredTasks "active" [⟨1, "a", none, false⟩, ⟨2, "b", none, true⟩]).length +
      ([⟨1, "a", none, false⟩, ⟨2, "b", none, true⟩].filter
        fun t => !(filterKeep "active" t)).length
      = ([⟨1, "a", none, false⟩, ⟨2, "b", none, true⟩] : List Task).length ∧
    filteredTasks "active" [⟨1, "a", none, false⟩, ⟨2, "b", none, true⟩]
      = [⟨1, "a", none, false⟩, ⟨2, "b", none, true⟩].filter (modePred "active") :=
  claim_C8_filter_projection "active" (Or.inr (Or.inl rfl))
    [⟨1, "a", none, false⟩, ⟨2, "b", none, true⟩]

/-- Claim C9: `parseUserDate` is unparseable (returns nothing) exactly when
its input is absent, empty, or contains no date segment of the shape
`<1-2 digit><sep><1-2 digit><sep><2-4 digit>`; and a task of the tick whose
stored date is unparseable is never notified (the due-check, a total
function, skips it). -/
theorem claim_C9_unparseable_skip (o : Option String) (now : Int) (ts : List Task)
    (f : List Nat) (t : Task) (hnd : (ts.map Task.id).Nodup) (ht : t ∈ ts)
    (hun : parseUserDate t.userDate = none) :
    (parseUserDate o = none ↔
      (o = none ∨ ∃ s, o = some s ∧ (s = "" ∨
        ¬ ∃ pre u post, s.data = pre ++ (u ++ post) ∧ dateShape u))) ∧
    t.id ∉ (checkDueTasks now ts f).2 := by
  constructor
  · cases o with
    | none => simp [parseUserDate]
    | some s =>
      by_cases hse : s = ""
      · subst hse
        constructor
        · intro _
          exact Or.inr ⟨"", rfl, Or.inl rfl⟩
        · intro _
          simp [parseUserDate]
      · constructor
        · intro hnone
          refine Or.inr ⟨s, rfl, Or.inr ?_⟩
          simp only [parseUserDate, if_neg hse] at hnone
          cases hs : searchDate s.data with
          | none => exact searchDate_eq_none_iff.mp hs
          | some pgr =>
            obtain ⟨p, g, r⟩ := pgr
            rw [hs] at hnone
            simp at hnone
        · rintro (hcontr | ⟨s2, hs2, hcase⟩)
          · exact absurd hcontr (by simp)
          · have hss : s = s2 := Option.some.inj hs2
            subst hss
            rcases hcase with he | hnoshape
            · exact absurd he hse
            · simp only [parseUserDate, if_neg hse,
                searchDate_eq_none_iff.mpr hnoshape]
  · intro hmem
    obtain ⟨⟨dt, hdt, -⟩, -, -⟩ := (check_char hnd ht).mp hmem
    rw [hun] at hdt
    exact absurd hdt (by simp)

/-- Witness for C9: a task whose date string has no date segment is not
notified on a concrete tick. -/
theorem claim_C9_unparseable_skip_witness :
    (3 : Nat) ∉ (checkDueTasks 0 [⟨3, "x", some "soon", false⟩] []).2 :=
  (claim_C9_unparseable_skip (some "no date here") 0 [⟨3, "x", some "soon", false⟩]
    [] ⟨3, "x", some "soon", false⟩ (by decide) (by simp) (by decide)).2

/-- Claim C10: `parseUserDate` performs no range validation: whenever the
date pattern matches, parsing yields a concrete value whose raw components
are passed through unchecked, so inputs with day 99, month 13, minute 99
and an hour above 12 with a `PM` marker still produce a concrete time
point. -/
theorem claim_C10_no_validation :
    (∀ (s : String) (p : List Char) (g : DateGroups) (r : List Char),
      searchDate s.data = some (p, g, r) → (parseUserDate (some s)).isSome) ∧
    parseUserDate (some "99-13-26 25:99 PM") =
      some { year := 2026, month := 12, day := 99, hours := 37, minutes := 99 } := by
  constructor
  · intro s p g r hsd
    have hne : ¬ s = "" := by
      intro he
      have hdata : s.data = [] := by rw [he]
      rw [hdata] at hsd
      simp [searchDate] at hsd
    simp only [parseUserDate, if_neg hne, hsd]
    cases hst : searchPlainTime s.data with
    | none => simp
    | some v =>
      obtain ⟨a, b, c⟩ := v
      simp
  · decide

/-- Witness for C10 on the out-of-range input. -/
theorem claim_C10_no_validation_witness :
    (parseUserDate (some "99-13-26 25:99 PM")).isSome :=
  claim_C10_no_validation.1 "99-13-26 25:99 PM" []
    ⟨['9', '9'], '-', ['1', '3'], '-', ['2', '6']⟩ (" 25:99 PM".data) (by decide)

end TasksUp
